import Mathlib

/-!
# SimpleSmartLoader and SimpleMultithreader: a shallow embedding

Sources embedded here:
* `os assignment 4/loader.c`, `loader.h`: the lazy ELF loader (`segv_handler`,
  `load_and_run_elf`, `main`);
* `simple-multithreader.h`: `calculateThreadRange` and the two `parallel_for` overloads.

Integer model.  The loader runs a 32-bit ELF image inside its own address space, so
pointers, `uintptr_t`, `size_t` and the `Elf32_*` words are 32-bit unsigned values.
They are stored as `Fin 2^32`; every C operation on them is written on `Nat` with an
explicit reduction modulo `2^32` (`add32`, `sub32`).  The `int` arguments of the
multithreader are integers reduced to the two's-complement range by `wrapInt` after
every operation.  The three statistics counters are kept as exact natural numbers:
an `int` counter overflows only as undefined behaviour after `2^31` faults, and the
fragmentation total of `n` allocations is at most `4095 * n`, below `2^32` for the
`2^20` pages an address space holds.

External calls (`open`, `read`, `malloc`, `sigaction`, `mmap`, `pthread_create`) are
not code of the repository; their outcomes are parameters of the embedding.
-/

namespace SimpleSmartLoader

/-! ## Machine words -/

/-- Number of values of a 32-bit word. -/
abbrev WORD : Nat := 4294967296

/-- The type `uint32_t` behind `Elf32_Word`, `Elf32_Addr`, `Elf32_Off`, and, on the
32-bit build, `uintptr_t` and `size_t`. -/
abbrev Elf32_Word : Type := Fin 4294967296

/-- Unsigned 32-bit addition. -/
def add32 (a b : Nat) : Nat := (a + b) % WORD

/-- Unsigned 32-bit subtraction of words `a, b < 2^32`. -/
def sub32 (a b : Nat) : Nat := (a + WORD - b) % WORD

/-- The macro `PAGE_SIZE` of loader.h: `0x1000`. -/
def PAGE_SIZE : Nat := 0x1000

/-- The constant `PT_LOAD` of `<elf.h>`. -/
def PT_LOAD : Nat := 1

/-- The value of `~(PAGE_SIZE - 1)` converted to `uintptr_t`: the 32-bit complement of `0xFFF`. -/
def PAGE_MASK : Nat := WORD - 1 - (PAGE_SIZE - 1)

/-! ## Data model -/

/-- The fields of `Elf32_Phdr` (`<elf.h>`) that the loader reads. -/
structure Elf32_Phdr where
  p_type : Elf32_Word
  p_offset : Elf32_Word
  p_vaddr : Elf32_Word
  p_filesz : Elf32_Word
  p_memsz : Elf32_Word
deriving DecidableEq, Repr

/-- What backs a page established by `mmap`: the executable at a file offset
(`MAP_PRIVATE | MAP_FIXED` on `fd`) or nothing (`MAP_ANONYMOUS`, fd `-1`, offset 0). -/
inductive Backing where
  | file (offset : Nat)
  | anonymous
deriving DecidableEq, Repr

/-- One successful `mmap` of the handler together with the `memset` that follows it:
`zeroed = some (start, len)` records `memset(page_addr + start, 0, len)`. -/
structure Mapping where
  addr : Nat
  length : Nat
  backing : Backing
  zeroed : Option (Nat × Nat)
deriving DecidableEq, Repr

/-- The globals `total_page_faults`, `total_page_allocations`,
`total_internal_fragmentation` of loader.c, and the pages mapped so far (newest first). -/
structure LoaderState where
  total_page_faults : Nat
  total_page_allocations : Nat
  total_internal_fragmentation : Nat
  pages : List Mapping
deriving DecidableEq, Repr

/-- The globals as initialised in loader.c: all counters zero, nothing mapped. -/
def LoaderState.init : LoaderState :=
  { total_page_faults := 0, total_page_allocations := 0,
    total_internal_fragmentation := 0, pages := [] }

/-- What the handler writes to the error stream before `_exit(1)`. -/
inductive Diagnostic where
  | mmap_failed_file
  | mmap_failed_bss
  | fatal_unhandled (fault_addr : Nat)
deriving DecidableEq, Repr

/-- How one invocation of `segv_handler` ends: `resume` is the `return` on line 128
(the faulting instruction is retried), `exit` is `loader_cleanup(); _exit(status)`. -/
inductive Outcome where
  | resume (s : LoaderState)
  | exit (status : Nat) (msg : Diagnostic) (s : LoaderState)
deriving DecidableEq, Repr

/-- Initial content of a mapped page, byte `k` of the page, given the bytes of the
executable: a file mapping shows the file from its offset on, an anonymous mapping
shows zeros, and the recorded `memset` overwrites its range with zeros. -/
def Mapping.byte (file : Nat → Nat) (m : Mapping) (k : Nat) : Nat :=
  let mapped := match m.backing with
    | .file offset => file (offset + k)
    | .anonymous => 0
  match m.zeroed with
  | some (start, len) => if start ≤ k ∧ k < start + len then 0 else mapped
  | none => mapped

/-! ## `segv_handler` -/

/-- The expression `(uintptr_t)fault_addr & ~(PAGE_SIZE - 1)` (loader.c line 52). -/
def fault_page_base (fault_addr : Elf32_Word) : Nat := fault_addr.val &&& PAGE_MASK

/-- Lines 113-128: count the allocation, charge the internal fragmentation when the
page is the last one of the segment, return. -/
def account (seg_memsz page_offset_in_segment : Nat) (s : LoaderState) : Outcome :=
  let s1 := { s with total_page_allocations := s.total_page_allocations + 1 }
  let seg_pages_required := sub32 (add32 seg_memsz PAGE_SIZE) 1 / PAGE_SIZE
  let current_page_index := page_offset_in_segment / PAGE_SIZE
  if current_page_index = sub32 seg_pages_required 1 then
    let last_page_used_size := seg_memsz % PAGE_SIZE
    if last_page_used_size ≠ 0 then
      .resume { s1 with total_internal_fragmentation :=
                          s1.total_internal_fragmentation + (PAGE_SIZE - last_page_used_size) }
    else .resume s1
  else .resume s1

/-- Lines 65-128, the body run for the matching segment `p`; `mmap_ok` tells whether
the one `mmap` call of this invocation succeeds (with `MAP_FIXED` it then returns
`fault_page_base`). -/
def map_page (p : Elf32_Phdr) (page_base : Nat) (mmap_ok : Bool) (s : LoaderState) : Outcome :=
  let seg_memsz := p.p_memsz.val
  let page_offset_in_segment := sub32 page_base p.p_vaddr.val
  if page_offset_in_segment < p.p_filesz.val then
    if !mmap_ok then .exit 1 .mmap_failed_file s
    else
      let zeroed :=
        if add32 page_offset_in_segment PAGE_SIZE > p.p_filesz.val then
          let bss_start_offset := sub32 p.p_filesz.val page_offset_in_segment
          if bss_start_offset < PAGE_SIZE then
            some (bss_start_offset, PAGE_SIZE - bss_start_offset)
          else none
        else none
      account seg_memsz page_offset_in_segment
        { s with pages := { addr := page_base, length := PAGE_SIZE,
                            backing := .file (add32 p.p_offset.val page_offset_in_segment),
                            zeroed := zeroed } :: s.pages }
  else
    if !mmap_ok then .exit 1 .mmap_failed_bss s
    else
      account seg_memsz page_offset_in_segment
        { s with pages := { addr := page_base, length := PAGE_SIZE,
                            backing := .anonymous, zeroed := none } :: s.pages }

/-- The test of lines 56 and 62 for one table entry. -/
def selects (p : Elf32_Phdr) (page_base : Nat) : Prop :=
  p.p_type.val = PT_LOAD ∧
    (p.p_vaddr.val ≤ page_base ∧ page_base < add32 p.p_vaddr.val p.p_memsz.val)

instance (p : Elf32_Phdr) (page_base : Nat) : Decidable (selects p page_base) := by
  unfold selects; infer_instance

/-- The `for` loop of lines 55-130 over the remaining table entries, followed by the
fatal path of lines 133-135 when it runs off the end. -/
def segv_scan (fault_addr : Elf32_Word) (page_base : Nat) (mmap_ok : Bool) (s : LoaderState) :
    List Elf32_Phdr → Outcome
  | [] => .exit 1 (.fatal_unhandled fault_addr.val) s
  | p :: rest =>
    if p.p_type.val ≠ PT_LOAD then segv_scan fault_addr page_base mmap_ok s rest
    else if p.p_vaddr.val ≤ page_base ∧ page_base < add32 p.p_vaddr.val p.p_memsz.val then
      map_page p page_base mmap_ok s
    else segv_scan fault_addr page_base mmap_ok s rest

/-- Line 48: `total_page_faults++`. -/
def count_fault (s : LoaderState) : LoaderState :=
  { s with total_page_faults := s.total_page_faults + 1 }

/-- The handler `segv_handler` of loader.c: `phdrs` is the program-header table
(`phdr[0 .. e_phnum)`), `fault_addr` is `info->si_addr`. -/
def segv_handler (phdrs : List Elf32_Phdr) (s : LoaderState) (fault_addr : Elf32_Word)
    (mmap_ok : Bool) : Outcome :=
  segv_scan fault_addr (fault_page_base fault_addr) mmap_ok (count_fault s) phdrs

/-! ## Runs of the loaded program -/

/-- One trap raised by the loaded program: the faulting address handed to the handler
in `info->si_addr`, and whether the `mmap` call made while handling it succeeds. -/
structure Trap where
  fault_addr : Elf32_Word
  mmap_ok : Bool
deriving DecidableEq, Repr

/-- The handler invoked once per trap, in order; a trap that takes an `_exit` path
ends the process, so later traps are never delivered. -/
def run_traps (phdrs : List Elf32_Phdr) : LoaderState → List Trap → Outcome
  | s, [] => .resume s
  | s, t :: ts =>
    match segv_handler phdrs s t.fault_addr t.mmap_ok with
    | .resume s1 => run_traps phdrs s1 ts
    | .exit n msg s1 => .exit n msg s1

/-! ## `load_and_run_elf` and `main` -/

/-- The outcomes of the external calls made by `load_and_run_elf` (`open`, the two
`malloc`s, the two `read`s, `sigaction`), the header field `e_phnum` (an `Elf32_Half`)
and the table read from the file, and the behaviour of the loaded image: the traps it
raises and the value `_start` returns. -/
structure LoadEnv where
  open_ret : Int
  ehdr_alloc : Bool
  ehdr_read : Int
  e_phnum : Fin 65536
  phdr_alloc : Bool
  phdr_read : Int
  phdrs : List Elf32_Phdr
  sigaction_ret : Int
  traps : List Trap
  start_ret : Int

/-- Lines written to the error stream by `main`, `load_and_run_elf` and the handler. -/
inductive Message where
  | usage
  | open_failed
  | ehdr_failed
  | phdr_failed
  | sigaction_failed
  | handler (d : Diagnostic)
deriving DecidableEq, Repr

/-- The values printed by the report of lines 184-193 (the fragmentation in bytes,
before the division by 1024.0). -/
structure Report where
  result : Int
  faults : Nat
  allocations : Nat
  fragmentation : Nat
deriving DecidableEq, Repr

/-- How `load_and_run_elf` ends: it returns to `main` (after a `perror`, or after the
report), or the process is ended inside the handler by `_exit`. -/
inductive LoadResult where
  | returned (err : Option Message) (report : Option Report)
  | exited (status : Nat) (msg : Diagnostic)
deriving DecidableEq, Repr

/-- The function `load_and_run_elf` of loader.c.  `sizeof(Elf32_Ehdr)` is 52 and
`sizeof(Elf32_Phdr)` is 32; the `ssize_t` result of `read` is compared after
conversion to `size_t`. -/
def load_and_run_elf (env : LoadEnv) : LoadResult :=
  if env.open_ret < 0 then .returned (some .open_failed) none
  else if !env.ehdr_alloc || env.ehdr_read % 4294967296 ≠ 52 then
    .returned (some .ehdr_failed) none
  else if !env.phdr_alloc ||
      env.phdr_read % 4294967296 ≠ ((env.e_phnum.val * 32 : Nat) : Int) % 4294967296 then
    .returned (some .phdr_failed) none
  else if env.sigaction_ret = -1 then .returned (some .sigaction_failed) none
  else
    match run_traps (env.phdrs.take env.e_phnum.val) LoaderState.init env.traps with
    | .exit n msg _ => .exited n msg
    | .resume s =>
      .returned none (some { result := env.start_ret, faults := s.total_page_faults,
                             allocations := s.total_page_allocations,
                             fragmentation := s.total_internal_fragmentation })

/-- What the process leaves behind: its exit status, the error line, the report. -/
structure ProcessExit where
  status : Nat
  err : Option Message
  report : Option Report
deriving DecidableEq, Repr

/-- The function `main` of loader.c. -/
def main (argc : Int) (env : LoadEnv) : ProcessExit :=
  if argc < 2 then { status := 1, err := some .usage, report := none }
  else
    match load_and_run_elf env with
    | .returned err report => { status := 0, err := err, report := report }
    | .exited n msg => { status := n, err := some (.handler msg), report := none }

end SimpleSmartLoader

namespace SimpleMultithreaderInternal

/-! ## simple-multithreader.h -/

/-- The value of an `int` expression: the mathematical result reduced to the
two's-complement range `[-2^31, 2^31)`. -/
def wrapInt (x : Int) : Int := (x + 2147483648) % 4294967296 - 2147483648

/-- The function `calculateThreadRange`: the pair `(outStart, outEnd)`. -/
def calculateThreadRange (low high threadIndex numThreads : Int) : Int × Int :=
  let total := wrapInt (high - low)
  if total ≤ 0 ∨ numThreads ≤ 0 then (low, low)
  else
    let base := wrapInt (Int.tdiv total numThreads)
    let rem := Int.tmod total numThreads
    let offset := wrapInt (wrapInt (threadIndex * base) +
      (if threadIndex < rem then threadIndex else rem))
    let count := wrapInt (base + (if threadIndex < rem then 1 else 0))
    let outStart := wrapInt (low + offset)
    let outEnd := wrapInt (outStart + count)
    (outStart, outEnd)

/-- The loop `for (int i = start; i < end; ++i) func(i)` of `thread_entry_1d` (and of
lines 140-142 and 151-153): the indices the body is invoked on, in order. -/
def thread_entry_1d (chunk : Int × Int) : List Int :=
  (List.range (chunk.2 - chunk.1).toNat).map (fun k => chunk.1 + (k : Int))

/-- The nested loops of `thread_entry_2d` (and of lines 213-217 and 226-230) for the
rows `chunk` and the columns `[low_j, high_j)`: the pairs the body is invoked on. -/
def thread_entry_2d (chunk : Int × Int) (low_j high_j : Int) : List (Int × Int) :=
  (thread_entry_1d chunk).flatMap (fun i => (thread_entry_1d (low_j, high_j)).map (fun j => (i, j)))

/-- The worker-creation loop of lines 134-147, from worker `t` with `n` workers still
to create: a created worker runs its chunk; at the first failing `pthread_create` the
chunks `t .. T-1` are run on the calling thread and the loop is left.  The result
lists the body invocations chunk by chunk (workers run concurrently, so only the
number of invocations per index is meaningful, not their order). -/
def create_workers_1d (chunks : List (Int × Int)) (create_ok : Nat → Bool) (T : Nat) :
    Nat → Nat → List Int
  | _, 0 => []
  | t, n + 1 =>
    if create_ok t then
      thread_entry_1d (chunks.getD t (0, 0)) ++ create_workers_1d chunks create_ok T (t + 1) n
    else
      (List.range' t (T - t)).flatMap (fun k => thread_entry_1d (chunks.getD k (0, 0)))

/-- The worker-creation loop of lines 207-222 of the 2D overload. -/
def create_workers_2d (chunks : List (Int × Int)) (low2 high2 : Int) (create_ok : Nat → Bool)
    (T : Nat) : Nat → Nat → List (Int × Int)
  | _, 0 => []
  | t, n + 1 =>
    if create_ok t then
      thread_entry_2d (chunks.getD t (0, 0)) low2 high2 ++
        create_workers_2d chunks low2 high2 create_ok T (t + 1) n
    else
      (List.range' t (T - t)).flatMap (fun k => thread_entry_2d (chunks.getD k (0, 0)) low2 high2)

/-- The 1D `parallel_for`: every invocation of the loop body made before the call
returns; `create_ok t` tells whether `pthread_create` for worker `t` succeeds. -/
def parallel_for (low high : Int) (numThreads : Int) (create_ok : Nat → Bool) : List Int :=
  if numThreads ≤ 0 then []
  else if high ≤ low then []
  else
    let T := numThreads.toNat
    let workerCount := if T > 1 then T - 1 else 0
    let chunks := (List.range T).map
      (fun t => calculateThreadRange low high (t : Int) numThreads)
    create_workers_1d chunks create_ok T 0 workerCount ++
      thread_entry_1d (chunks.getD (T - 1) (0, 0))

/-- The 2D `parallel_for`: every invocation of the loop body made before the call returns. -/
def parallel_for_2d (low1 high1 low2 high2 : Int) (numThreads : Int) (create_ok : Nat → Bool) :
    List (Int × Int) :=
  if numThreads ≤ 0 then []
  else if high1 ≤ low1 ∨ high2 ≤ low2 then []
  else
    let T := numThreads.toNat
    let workerCount := if T > 1 then T - 1 else 0
    let chunks := (List.range T).map
      (fun t => calculateThreadRange low1 high1 (t : Int) numThreads)
    create_workers_2d chunks low2 high2 create_ok T 0 workerCount ++
      thread_entry_2d (chunks.getD (T - 1) (0, 0)) low2 high2

/-- Start offset, from `low`, of chunk `t` when the items are split with quotient `b`
and remainder `r`: the first `r` chunks hold `b + 1` items, the others `b`. -/
def chunk_offset (b r t : Int) : Int := t * b + (if t < r then t else r)

end SimpleMultithreaderInternal

namespace SimpleSmartLoader

/-! ## Reference definitions used in the statements -/

/-- The page the handler is expected to establish for segment `p` at `page_base`,
written with exact arithmetic: file-backed at `p_offset + off` when `off < p_filesz`,
with the tail from `p_filesz - off` zeroed when the file content ends inside the page;
anonymous otherwise (`off = page_base - p_vaddr`). -/
def page_of (p : Elf32_Phdr) (page_base : Nat) : Mapping :=
  let off := page_base - p.p_vaddr.val
  if off < p.p_filesz.val then
    { addr := page_base, length := 4096, backing := .file (p.p_offset.val + off),
      zeroed := if p.p_filesz.val < off + 4096 then
        some (p.p_filesz.val - off, 4096 - (p.p_filesz.val - off)) else none }
  else { addr := page_base, length := 4096, backing := .anonymous, zeroed := none }

/-- The internal fragmentation expected for a fault on `page_base` resolved to segment
`p`, written with exact arithmetic: `4096 - (p_memsz mod 4096)` when the page is the
last one of the segment (`off / 4096 = ceil(p_memsz / 4096) - 1`) and the remainder is
non-zero, and 0 otherwise. -/
def charge_of (p : Elf32_Phdr) (page_base : Nat) : Nat :=
  if (page_base - p.p_vaddr.val) / 4096 + 1 = (p.p_memsz.val + 4095) / 4096 ∧
      p.p_memsz.val % 4096 ≠ 0 then 4096 - p.p_memsz.val % 4096 else 0

/-- The page at `page_base` is the last page of segment `p`: the entry is selected for
it and `off / 4096 = ceil(p_memsz / 4096) - 1` for `off = page_base - p_vaddr`. -/
def is_last_page (p : Elf32_Phdr) (page_base : Nat) : Prop :=
  selects p page_base ∧
    (page_base - p.p_vaddr.val) / 4096 + 1 = (p.p_memsz.val + 4095) / 4096

instance (p : Elf32_Phdr) (page_base : Nat) : Decidable (is_last_page p page_base) := by
  unfold is_last_page; infer_instance

/-- The unused tail of the last page of segment `p`: `4096 - (p_memsz mod 4096)` where
that remainder is non-zero. -/
def last_page_charge (p : Elf32_Phdr) : Nat :=
  if p.p_memsz.val % 4096 ≠ 0 then 4096 - p.p_memsz.val % 4096 else 0

/-- The fragmentation total as the specification states it: the sum, over the segments
whose last page was faulted at least once, of the unused tail of that page. -/
def claimed_fragmentation (phdrs : List Elf32_Phdr) (traps : List Trap) : Nat :=
  (phdrs.map (fun p =>
    if ∃ t ∈ traps, is_last_page p (fault_page_base t.fault_addr) then last_page_charge p
    else 0)).sum

/-- The charge of one fault on `page_base`: the unused tail of every segment whose last
page it is. -/
def trap_charge (phdrs : List Elf32_Phdr) (page_base : Nat) : Nat :=
  (phdrs.map (fun p => if is_last_page p page_base then last_page_charge p else 0)).sum

/-- The LOAD segments of the table are pairwise disjoint as address ranges. -/
def non_overlapping (phdrs : List Elf32_Phdr) : Prop :=
  (phdrs.filter (fun p => decide (p.p_type.val = PT_LOAD))).Pairwise
    (fun p q => p.p_vaddr.val + p.p_memsz.val ≤ q.p_vaddr.val ∨
      q.p_vaddr.val + q.p_memsz.val ≤ p.p_vaddr.val)

instance (phdrs : List Elf32_Phdr) : Decidable (non_overlapping phdrs) := by
  unfold non_overlapping; infer_instance

end SimpleSmartLoader

/-! # Theorems -/

namespace SimpleSmartLoader

/-! ## Basic facts about the embedding -/

theorem and_page_mask (x : Nat) (hx : x < 4294967296) :
    x &&& 4294963200 = 4096 * (x / 4096) := by
  apply Nat.eq_of_testBit_eq
  intro i
  have hm : (4294963200 : Nat) = 2 ^ 12 * (2 ^ 20 - 1) := by norm_num
  have hp : (4096 : Nat) = 2 ^ 12 := by norm_num
  rw [Nat.testBit_and, hm, hp, Nat.testBit_mul_pow_two, Nat.testBit_mul_pow_two,
    Nat.testBit_two_pow_sub_one, ← Nat.shiftRight_eq_div_pow, Nat.testBit_shiftRight]
  by_cases h12 : i ≥ 12
  · by_cases h32 : i - 12 < 20
    · have : 12 + (i - 12) = i := by omega
      simp [h12, h32, this]
    · have hlt : x < 2 ^ i := by
        calc x < 2 ^ 32 := by norm_num; exact hx
          _ ≤ 2 ^ i := Nat.pow_le_pow_right (by norm_num) (by omega)
      simp [h12, h32, Nat.testBit_lt_two_pow hlt]
  · simp [h12]

theorem fault_page_base_eq (a : Elf32_Word) :
    fault_page_base a = a.val - a.val % 4096 := by
  unfold fault_page_base PAGE_MASK PAGE_SIZE WORD
  have h := and_page_mask a.val a.isLt
  norm_num at h ⊢
  omega

theorem account_resume (m o : Nat) (s : LoaderState) : ∃ s1, account m o s = .resume s1 := by
  unfold account
  simp only []
  split
  · split
    · exact ⟨_, rfl⟩
    · exact ⟨_, rfl⟩
  · exact ⟨_, rfl⟩

theorem map_page_cases (p : Elf32_Phdr) (pb : Nat) (ok : Bool) (s : LoaderState) :
    (∃ s1, map_page p pb ok s = .resume s1) ∨
      map_page p pb ok s = .exit 1 .mmap_failed_file s ∨
      map_page p pb ok s = .exit 1 .mmap_failed_bss s := by
  unfold map_page
  simp only []
  split
  · split
    · exact Or.inr (Or.inl rfl)
    · exact Or.inl (account_resume _ _ _)
  · split
    · exact Or.inr (Or.inr rfl)
    · exact Or.inl (account_resume _ _ _)

theorem map_page_not_fatal (p : Elf32_Phdr) (pb : Nat) (ok : Bool) (s s1 : LoaderState)
    (n a : Nat) : map_page p pb ok s ≠ .exit n (.fatal_unhandled a) s1 := by
  intro h
  rcases map_page_cases p pb ok s with ⟨s2, h2⟩ | h2 | h2 <;> rw [h2] at h <;> cases h

theorem segv_scan_skip (a : Elf32_Word) (pb : Nat) (ok : Bool) (s : LoaderState)
    (p : Elf32_Phdr) (rest : List Elf32_Phdr) (h : ¬ selects p pb) :
    segv_scan a pb ok s (p :: rest) = segv_scan a pb ok s rest := by
  unfold selects at h
  by_cases h1 : p.p_type.val = PT_LOAD
  · have h2 : ¬ (p.p_vaddr.val ≤ pb ∧ pb < add32 p.p_vaddr.val p.p_memsz.val) :=
      fun hc => h ⟨h1, hc⟩
    simp [segv_scan, h1, h2]
  · simp [segv_scan, h1]

theorem segv_scan_hit (a : Elf32_Word) (pb : Nat) (ok : Bool) (s : LoaderState)
    (p : Elf32_Phdr) (rest : List Elf32_Phdr) (h : selects p pb) :
    segv_scan a pb ok s (p :: rest) = map_page p pb ok s := by
  obtain ⟨h1, h2⟩ := h
  simp [segv_scan, h1, h2]

theorem segv_scan_none (a : Elf32_Word) (pb : Nat) (ok : Bool) (s : LoaderState)
    (l : List Elf32_Phdr) (h : ∀ p ∈ l, ¬ selects p pb) :
    segv_scan a pb ok s l = .exit 1 (.fatal_unhandled a.val) s := by
  induction l with
  | nil => rfl
  | cons p rest ih =>
    rw [segv_scan_skip a pb ok s p rest (h p (List.mem_cons_self _ _))]
    exact ih (fun q hq => h q (List.mem_cons_of_mem _ hq))

theorem segv_scan_first (a : Elf32_Word) (pb : Nat) (ok : Bool) (s : LoaderState)
    (l : List Elf32_Phdr) (i : Nat) (p : Elf32_Phdr) (hp : l[i]? = some p) (hs : selects p pb)
    (hfirst : ∀ q ∈ l.take i, ¬ selects q pb) :
    segv_scan a pb ok s l = map_page p pb ok s := by
  induction l generalizing i with
  | nil => simp at hp
  | cons q rest ih =>
    cases i with
    | zero =>
      simp at hp
      subst hp
      exact segv_scan_hit a pb ok s q rest hs
    | succ k =>
      have hq : ¬ selects q pb := hfirst q (by simp)
      rw [segv_scan_skip a pb ok s q rest hq]
      refine ih k (by simpa using hp) ?_
      intro r hr
      exact hfirst r (by simp [hr])

theorem segv_scan_filter (a : Elf32_Word) (pb : Nat) (ok : Bool) (s : LoaderState)
    (l : List Elf32_Phdr) :
    segv_scan a pb ok s (l.filter (fun p => decide (p.p_type.val = PT_LOAD))) =
      segv_scan a pb ok s l := by
  induction l with
  | nil => rfl
  | cons p rest ih =>
    by_cases h1 : p.p_type.val = PT_LOAD
    · rw [List.filter_cons_of_pos (by simpa using h1)]
      by_cases h2 : selects p pb
      · rw [segv_scan_hit a pb ok s p _ h2, segv_scan_hit a pb ok s p _ h2]
      · rw [segv_scan_skip a pb ok s p _ h2, segv_scan_skip a pb ok s p _ h2, ih]
    · rw [List.filter_cons_of_neg (by simpa using h1),
        segv_scan_skip a pb ok s p rest (fun hc => h1 hc.1), ih]

theorem segv_scan_exists (a : Elf32_Word) (pb : Nat) (ok : Bool) (s : LoaderState)
    (l : List Elf32_Phdr) (h : ∃ p ∈ l, selects p pb) :
    ∃ p ∈ l, selects p pb ∧ segv_scan a pb ok s l = map_page p pb ok s := by
  induction l with
  | nil => simp at h
  | cons q rest ih =>
    by_cases hq : selects q pb
    · exact ⟨q, List.mem_cons_self _ _, hq, segv_scan_hit a pb ok s q rest hq⟩
    · obtain ⟨p, hp, hsel⟩ := h
      have hp2 : p ∈ rest := by
        rcases List.mem_cons.1 hp with rfl | h2
        · exact absurd hsel hq
        · exact h2
      obtain ⟨r, hr, hrs, hre⟩ := ih ⟨p, hp2, hsel⟩
      exact ⟨r, List.mem_cons_of_mem _ hr, hrs, by rw [segv_scan_skip a pb ok s q rest hq, hre]⟩

/-! ## Claims about the fault handler -/

/-- Claim C4. The page base is the fault address rounded down to a multiple of 4096;
the handler runs the mapping body for the first table entry, in table order, that is
of type LOAD and whose range contains the page base; it takes the unhandled-fault exit
exactly when the table has no such entry; entries of other types are never selected
(dropping them from the table changes nothing).  The range test is the one of the code,
with the end `p_vaddr + p_memsz` taken in 32-bit arithmetic; it is membership in
`[p_vaddr, p_vaddr + p_memsz)` for every entry whose range ends below `2^32`. -/
theorem segv_handler_first_match (phdrs : List Elf32_Phdr) (s : LoaderState)
    (fault_addr : Elf32_Word) (mmap_ok : Bool) :
    (fault_page_base fault_addr ≤ fault_addr.val ∧
      fault_addr.val < fault_page_base fault_addr + 4096 ∧
      fault_page_base fault_addr % 4096 = 0) ∧
    (∀ (i : Nat) (p : Elf32_Phdr), phdrs[i]? = some p →
      selects p (fault_page_base fault_addr) →
      (∀ q ∈ phdrs.take i, ¬ selects q (fault_page_base fault_addr)) →
      segv_handler phdrs s fault_addr mmap_ok =
        map_page p (fault_page_base fault_addr) mmap_ok (count_fault s)) ∧
    ((∀ p ∈ phdrs, ¬ selects p (fault_page_base fault_addr)) ↔
      segv_handler phdrs s fault_addr mmap_ok =
        .exit 1 (.fatal_unhandled fault_addr.val) (count_fault s)) ∧
    (segv_handler (phdrs.filter (fun p => decide (p.p_type.val = PT_LOAD))) s fault_addr mmap_ok =
      segv_handler phdrs s fault_addr mmap_ok) ∧
    (∀ (p : Elf32_Phdr) (b : Nat), p.p_vaddr.val + p.p_memsz.val < 4294967296 →
      (selects p b ↔
        (p.p_type.val = 1 ∧ p.p_vaddr.val ≤ b ∧ b < p.p_vaddr.val + p.p_memsz.val))) := by
  refine ⟨?_, ?_, ?_, ?_, ?_⟩
  · rw [fault_page_base_eq]
    omega
  · intro i p hp hs hfirst
    exact segv_scan_first fault_addr _ mmap_ok _ phdrs i p hp hs hfirst
  · constructor
    · intro h
      exact segv_scan_none fault_addr _ mmap_ok _ phdrs h
    · intro h p hp hs
      obtain ⟨r, _, _, hre⟩ := segv_scan_exists fault_addr (fault_page_base fault_addr) mmap_ok
        (count_fault s) phdrs ⟨p, hp, hs⟩
      unfold segv_handler at h
      rw [hre] at h
      exact map_page_not_fatal _ _ _ _ _ _ _ h
  · exact segv_scan_filter fault_addr _ mmap_ok _ phdrs
  · intro p b hfit
    unfold selects add32 PT_LOAD WORD
    rw [Nat.mod_eq_of_lt hfit]


theorem selects_bounds (p : Elf32_Phdr) (pb : Nat) (h : selects p pb) :
    p.p_type.val = 1 ∧ p.p_vaddr.val ≤ pb ∧ pb < p.p_vaddr.val + p.p_memsz.val ∧
      pb < 4294967296 ∧ 0 < p.p_memsz.val ∧
      sub32 pb p.p_vaddr.val = pb - p.p_vaddr.val := by
  unfold selects add32 PT_LOAD WORD at h
  unfold sub32 WORD
  have h1 := p.p_vaddr.isLt
  have h2 := p.p_memsz.isLt
  omega

theorem account_eq (M off : Nat) (s : LoaderState) (hM : 0 < M) (hM2 : M < 4294967296)
    (hoff : off + 4096 < 4294967296) :
    account M off s = .resume
      { total_page_faults := s.total_page_faults,
        total_page_allocations := s.total_page_allocations + 1,
        total_internal_fragmentation := s.total_internal_fragmentation +
          (if off / 4096 + 1 = (M + 4095) / 4096 ∧ M % 4096 ≠ 0 then 4096 - M % 4096 else 0),
        pages := s.pages } := by
  unfold account sub32 add32 PAGE_SIZE WORD
  simp only []
  have key : (off / 4096 = ((((M + 4096) % 4294967296 + 4294967296 - 1) % 4294967296) / 4096
      + 4294967296 - 1) % 4294967296) ↔ off / 4096 + 1 = (M + 4095) / 4096 := by
    omega
  by_cases h1 : off / 4096 + 1 = (M + 4095) / 4096
  · rw [if_pos (key.2 h1)]
    by_cases h2 : M % 4096 = 0
    · simp [h1, h2]
    · simp [h1, h2]
  · rw [if_neg (fun hc => h1 (key.1 hc))]
    simp [h1]

theorem map_page_eq (p : Elf32_Phdr) (pb : Nat) (s : LoaderState) (hsel : selects p pb)
    (htop : pb + 4096 < 4294967296)
    (hfile : p.p_offset.val + p.p_filesz.val ≤ 4294967296) :
    map_page p pb true s = .resume
      { total_page_faults := s.total_page_faults,
        total_page_allocations := s.total_page_allocations + 1,
        total_internal_fragmentation := s.total_internal_fragmentation + charge_of p pb,
        pages := page_of p pb :: s.pages } := by
  obtain ⟨_, hv, _, _, hM, hsub⟩ := selects_bounds p pb hsel
  have hM2 := p.p_memsz.isLt
  have hF := p.p_filesz.isLt
  unfold map_page
  simp only [hsub]
  have hacc := fun s => account_eq p.p_memsz.val (pb - p.p_vaddr.val) s hM hM2 (by omega)
  by_cases hlt : pb - p.p_vaddr.val < p.p_filesz.val
  · have hadd : add32 (pb - p.p_vaddr.val) PAGE_SIZE = pb - p.p_vaddr.val + 4096 := by
      unfold add32 PAGE_SIZE WORD; omega
    have hbss : sub32 p.p_filesz.val (pb - p.p_vaddr.val) = p.p_filesz.val - (pb - p.p_vaddr.val) := by
      unfold sub32 WORD; omega
    have hfo : add32 p.p_offset.val (pb - p.p_vaddr.val) = p.p_offset.val + (pb - p.p_vaddr.val) := by
      unfold add32 WORD; omega
    rw [if_pos hlt, hacc, hadd, hbss, hfo]
    simp only [page_of, charge_of, if_pos hlt, Bool.not_true, Bool.false_eq_true, if_false]
    by_cases hs : p.p_filesz.val < pb - p.p_vaddr.val + 4096
    · have h4 : p.p_filesz.val - (pb - p.p_vaddr.val) < 4096 := by omega
      simp [hs, h4, PAGE_SIZE]
    · simp [hs, PAGE_SIZE]
  · rw [if_neg hlt, hacc]
    simp [page_of, charge_of, hlt, PAGE_SIZE]


theorem map_page_counters (p : Elf32_Phdr) (pb : Nat) (s : LoaderState) (hsel : selects p pb)
    (htop : pb + 4096 < 4294967296) :
    ∃ m, map_page p pb true s = .resume
      { total_page_faults := s.total_page_faults,
        total_page_allocations := s.total_page_allocations + 1,
        total_internal_fragmentation := s.total_internal_fragmentation + charge_of p pb,
        pages := m :: s.pages } := by
  obtain ⟨_, hv, _, _, hM, hsub⟩ := selects_bounds p pb hsel
  have hM2 := p.p_memsz.isLt
  unfold map_page
  simp only [hsub]
  have hacc := fun s => account_eq p.p_memsz.val (pb - p.p_vaddr.val) s hM hM2 (by omega)
  by_cases hlt : pb - p.p_vaddr.val < p.p_filesz.val
  · rw [if_pos hlt, hacc]
    simp only [charge_of, Bool.not_true, Bool.false_eq_true, if_false]
    exact ⟨_, rfl⟩
  · rw [if_neg hlt, hacc]
    simp only [charge_of, Bool.not_true, Bool.false_eq_true, if_false]
    exact ⟨_, rfl⟩

theorem page_of_byte (p : Elf32_Phdr) (pb : Nat) (file : Nat → Nat) (k : Nat) (hk : k < 4096) :
    (page_of p pb).byte file k =
      if pb - p.p_vaddr.val + k < p.p_filesz.val then
        file (p.p_offset.val + (pb - p.p_vaddr.val) + k)
      else 0 := by
  unfold page_of Mapping.byte
  simp only []
  by_cases hlt : pb - p.p_vaddr.val < p.p_filesz.val
  · rw [if_pos hlt]
    by_cases hs : p.p_filesz.val < pb - p.p_vaddr.val + 4096
    · simp only [if_pos hs]
      by_cases hz : pb - p.p_vaddr.val + k < p.p_filesz.val
      · rw [if_pos hz, if_neg (by omega)]
      · rw [if_neg hz, if_pos (by omega)]
    · simp only [if_neg hs]
      rw [if_pos (by omega)]
  · rw [if_neg hlt, if_neg (by omega)]

/-- Claim C2, as amended. For every program-header table and every fault address such
that neither the address nor its page base (the address rounded down to a multiple of
4096) lies in any LOAD segment's range `[p_vaddr, p_vaddr + p_memsz)`, the handler ends
the process with status 1 on the unhandled-fault path: no page is mapped, the
allocation and fragmentation counters are unchanged, the fault counter is one higher.
Addresses that lie inside a LOAD segment are not covered by this statement. -/
theorem segv_handler_unowned (phdrs : List Elf32_Phdr) (s : LoaderState)
    (fault_addr : Elf32_Word) (mmap_ok : Bool)
    (h : ∀ p ∈ phdrs, p.p_type.val = 1 →
      ¬ (p.p_vaddr.val ≤ fault_addr.val ∧
          fault_addr.val < p.p_vaddr.val + p.p_memsz.val) ∧
      ¬ (p.p_vaddr.val ≤ fault_page_base fault_addr ∧
          fault_page_base fault_addr < p.p_vaddr.val + p.p_memsz.val)) :
    segv_handler phdrs s fault_addr mmap_ok =
      .exit 1 (.fatal_unhandled fault_addr.val)
        { total_page_faults := s.total_page_faults + 1,
          total_page_allocations := s.total_page_allocations,
          total_internal_fragmentation := s.total_internal_fragmentation,
          pages := s.pages } := by
  unfold segv_handler
  rw [segv_scan_none]
  · rfl
  · intro p hp hs
    obtain ⟨h1, h2, h3, _⟩ := selects_bounds p _ hs
    exact (h p hp h1).2 ⟨h2, h3⟩

/-- Witness for claim C2 as amended: one LOAD segment at 0x10000 of 16 bytes, fault at
0x20004, whose page base 0x20000 is outside the segment as well. -/
theorem segv_handler_unowned_witness :
    segv_handler
        [{ p_type := 1, p_offset := 0x1000, p_vaddr := 0x10000, p_filesz := 0x10, p_memsz := 0x10 }]
        LoaderState.init 0x20004 true =
      .exit 1 (.fatal_unhandled 0x20004)
        { total_page_faults := 1, total_page_allocations := 0,
          total_internal_fragmentation := 0, pages := [] } :=
  segv_handler_unowned
    [{ p_type := 1, p_offset := 0x1000, p_vaddr := 0x10000, p_filesz := 0x10, p_memsz := 0x10 }]
    LoaderState.init 0x20004 true (by decide)

/-- Counterexample to claim C2 as stated: with one LOAD segment `[0x10000, 0x10010)`,
the fault address 0x10020 lies in no LOAD segment's range, yet the handler does not
exit: it maps the page at 0x10000, counts an allocation and charges 4080 bytes. -/
theorem segv_handler_unowned_counterexample :
    (∀ p ∈ ([{ p_type := 1, p_offset := 0x1000, p_vaddr := 0x10000, p_filesz := 0x10,
               p_memsz := 0x10 }] : List Elf32_Phdr),
        ¬ (p.p_vaddr.val ≤ 0x10020 ∧ 0x10020 < p.p_vaddr.val + p.p_memsz.val)) ∧
    segv_handler
        [{ p_type := 1, p_offset := 0x1000, p_vaddr := 0x10000, p_filesz := 0x10, p_memsz := 0x10 }]
        LoaderState.init 0x10020 true =
      .resume
        { total_page_faults := 1, total_page_allocations := 1,
          total_internal_fragmentation := 4080,
          pages := [{ addr := 0x10000, length := 4096, backing := .file 0x1000,
                      zeroed := some (16, 4080) }] } := by
  decide

/-- Claim C3, the code at the failing input: a LOAD segment `[0x8049f08, 0x804a008)`
whose start is not page-aligned, a fault at 0x8049f10 inside it, `mmap` ready to
succeed.  The page base 0x8049000 is below `p_vaddr`, no entry is selected, and the
handler ends the process with status 1 on the unhandled-fault path without mapping. -/
theorem segv_handler_unaligned_segment_fatal :
    ((0x8049f08 : Nat) ≤ 0x8049f10 ∧ (0x8049f10 : Nat) < 0x8049f08 + 0x100) ∧
    fault_page_base 0x8049f10 = 0x8049000 ∧
    segv_handler
        [{ p_type := 1, p_offset := 0xf08, p_vaddr := 0x8049f08, p_filesz := 0x100,
           p_memsz := 0x100 }]
        LoaderState.init 0x8049f10 true =
      .exit 1 (.fatal_unhandled 0x8049f10)
        { total_page_faults := 1, total_page_allocations := 0,
          total_internal_fragmentation := 0, pages := [] } := by
  decide

/-- Claim C5. When a fault is resolved to segment `p` (the first selected entry) and
`mmap` succeeds, with `off = pageBase - p_vaddr`: the handler resumes having mapped
exactly one page, 4096 bytes at `pageBase`; the page is file-backed at file offset
`p_offset + off` when `off < p_filesz` and anonymous otherwise; byte `k` of its initial
content is the file byte at `p_offset + off + k` when `off + k < p_filesz` and zero
otherwise; in the file-backed case the zeroed range starts at `p_filesz - off > 0` and
ends with the page when `off + 4096 > p_filesz`, and is empty when
`off + 4096 <= p_filesz`.  Stated for pages below the topmost page of the 32-bit address
space and file ranges `p_offset + p_filesz` within `2^32`. -/
theorem segv_handler_page_content (phdrs : List Elf32_Phdr) (s : LoaderState)
    (fault_addr : Elf32_Word) (i : Nat) (p : Elf32_Phdr)
    (hp : phdrs[i]? = some p)
    (hsel : selects p (fault_page_base fault_addr))
    (hfirst : ∀ q ∈ phdrs.take i, ¬ selects q (fault_page_base fault_addr))
    (htop : fault_page_base fault_addr + 4096 < 4294967296)
    (hfile : p.p_offset.val + p.p_filesz.val ≤ 4294967296) :
    ∃ (s1 : LoaderState) (m : Mapping),
      segv_handler phdrs s fault_addr true = .resume s1 ∧
      s1.pages = m :: s.pages ∧
      m.addr = fault_page_base fault_addr ∧ m.length = 4096 ∧
      (fault_page_base fault_addr - p.p_vaddr.val < p.p_filesz.val →
        m.backing = .file (p.p_offset.val + (fault_page_base fault_addr - p.p_vaddr.val))) ∧
      (¬ fault_page_base fault_addr - p.p_vaddr.val < p.p_filesz.val →
        m.backing = .anonymous) ∧
      (∀ (file : Nat → Nat) (k : Nat), k < 4096 →
        m.byte file k =
          if fault_page_base fault_addr - p.p_vaddr.val + k < p.p_filesz.val then
            file (p.p_offset.val + (fault_page_base fault_addr - p.p_vaddr.val) + k)
          else 0) ∧
      (fault_page_base fault_addr - p.p_vaddr.val < p.p_filesz.val →
        p.p_filesz.val < fault_page_base fault_addr - p.p_vaddr.val + 4096 →
        m.zeroed = some (p.p_filesz.val - (fault_page_base fault_addr - p.p_vaddr.val),
            4096 - (p.p_filesz.val - (fault_page_base fault_addr - p.p_vaddr.val))) ∧
          0 < p.p_filesz.val - (fault_page_base fault_addr - p.p_vaddr.val) ∧
          p.p_filesz.val - (fault_page_base fault_addr - p.p_vaddr.val) +
            (4096 - (p.p_filesz.val - (fault_page_base fault_addr - p.p_vaddr.val))) = 4096) ∧
      (fault_page_base fault_addr - p.p_vaddr.val < p.p_filesz.val →
        fault_page_base fault_addr - p.p_vaddr.val + 4096 ≤ p.p_filesz.val →
        m.zeroed = none) := by
  have hrun : segv_handler phdrs s fault_addr true = .resume
      { total_page_faults := s.total_page_faults + 1,
        total_page_allocations := s.total_page_allocations + 1,
        total_internal_fragmentation :=
          s.total_internal_fragmentation + charge_of p (fault_page_base fault_addr),
        pages := page_of p (fault_page_base fault_addr) :: s.pages } := by
    unfold segv_handler
    rw [segv_scan_first fault_addr _ true _ phdrs i p hp hsel hfirst]
    exact map_page_eq p _ _ hsel htop hfile
  refine ⟨_, page_of p (fault_page_base fault_addr), hrun, rfl, ?_, ?_, ?_, ?_, ?_, ?_, ?_⟩
  · unfold page_of; simp only []; split <;> rfl
  · unfold page_of; simp only []; split <;> rfl
  · intro h; unfold page_of; simp only []; rw [if_pos h]
  · intro h; unfold page_of; simp only []; rw [if_neg h]
  · intro file k hk
    exact page_of_byte p _ file k hk
  · intro h1 h2
    refine ⟨?_, by omega, by omega⟩
    unfold page_of; simp only []; rw [if_pos h1]; simp only [if_pos h2]
  · intro h1 h2
    unfold page_of; simp only []; rw [if_pos h1]
    simp only [if_neg (show ¬ p.p_filesz.val < fault_page_base fault_addr - p.p_vaddr.val + 4096 by omega)]


/-- Witness for claim C5: the segment of file size 100 and memory size 5000 at 0x10000
(file offset 0x1000), first page faulted: the page is mapped from file offset 0x1000
and bytes 100..4095 are zeroed. -/
theorem segv_handler_page_content_witness :
    ∃ (s1 : LoaderState) (m : Mapping),
      segv_handler
          [{ p_type := 1, p_offset := 0x1000, p_vaddr := 0x10000, p_filesz := 100,
             p_memsz := 5000 }]
          LoaderState.init 0x10004 true = .resume s1 ∧
      s1.pages = [m] ∧ m.addr = 0x10000 ∧ m.length = 4096 ∧
      m.backing = .file 0x1000 ∧ m.zeroed = some (100, 3996) := by
  obtain ⟨s1, m, h1, h2, h3, h4, h5, _, _, h8, _⟩ :=
    segv_handler_page_content
      [{ p_type := 1, p_offset := 0x1000, p_vaddr := 0x10000, p_filesz := 100, p_memsz := 5000 }]
      LoaderState.init 0x10004 0
      { p_type := 1, p_offset := 0x1000, p_vaddr := 0x10000, p_filesz := 100, p_memsz := 5000 }
      (by decide) (by decide) (by decide) (by decide) (by decide)
  exact ⟨s1, m, h1, h2, h3, h4, h5 (by decide), (h8 (by decide) (by decide)).1⟩

/-- Claim C6. When a fault is resolved to segment `p` (the first selected entry) of
in-memory size `S` at offset `off = pageBase - p_vaddr` and `mmap` succeeds, the handler
resumes with the fragmentation counter increased by exactly `4096 - (S mod 4096)` if
`off / 4096 = ceil(S / 4096) - 1` and `S mod 4096` is not 0, and by 0 otherwise (so a
segment whose size is a multiple of 4096 is never charged); the allocation counter
and the fault counter are each increased by exactly 1.  Stated for pages below the
topmost page of the 32-bit address space. -/
theorem segv_handler_fragmentation_charge (phdrs : List Elf32_Phdr) (s : LoaderState)
    (fault_addr : Elf32_Word) (i : Nat) (p : Elf32_Phdr)
    (hp : phdrs[i]? = some p)
    (hsel : selects p (fault_page_base fault_addr))
    (hfirst : ∀ q ∈ phdrs.take i, ¬ selects q (fault_page_base fault_addr))
    (htop : fault_page_base fault_addr + 4096 < 4294967296) :
    ∃ s1 : LoaderState,
      segv_handler phdrs s fault_addr true = .resume s1 ∧
      s1.total_internal_fragmentation = s.total_internal_fragmentation +
        (if (fault_page_base fault_addr - p.p_vaddr.val) / 4096 + 1 =
              (p.p_memsz.val + 4095) / 4096 ∧ p.p_memsz.val % 4096 ≠ 0
          then 4096 - p.p_memsz.val % 4096 else 0) ∧
      (p.p_memsz.val % 4096 = 0 →
        s1.total_internal_fragmentation = s.total_internal_fragmentation) ∧
      s1.total_page_allocations = s.total_page_allocations + 1 ∧
      s1.total_page_faults = s.total_page_faults + 1 := by
  obtain ⟨m, hm⟩ := map_page_counters p (fault_page_base fault_addr) (count_fault s) hsel htop
  have hrun : segv_handler phdrs s fault_addr true = .resume
      { total_page_faults := s.total_page_faults + 1,
        total_page_allocations := s.total_page_allocations + 1,
        total_internal_fragmentation :=
          s.total_internal_fragmentation + charge_of p (fault_page_base fault_addr),
        pages := m :: s.pages } := by
    unfold segv_handler
    rw [segv_scan_first fault_addr _ true _ phdrs i p hp hsel hfirst]
    exact hm
  refine ⟨_, hrun, rfl, ?_, rfl, rfl⟩
  intro h0
  simp [charge_of, h0]

/-- Witness for claim C6, the scenario of the claim: one LOAD segment at 0x10000 with
file size 0x10 and memory size 0x10, faulted once at 0x10000 from zeroed counters,
gives faults = 1, allocations = 1, fragmentation = 4080 bytes. -/
theorem segv_handler_fragmentation_charge_witness :
    ∃ s1 : LoaderState,
      segv_handler
          [{ p_type := 1, p_offset := 0x1000, p_vaddr := 0x10000, p_filesz := 0x10,
             p_memsz := 0x10 }]
          LoaderState.init 0x10000 true = .resume s1 ∧
      s1.total_page_faults = 1 ∧ s1.total_page_allocations = 1 ∧
      s1.total_internal_fragmentation = 4080 := by
  obtain ⟨s1, h1, h2, _, h4, h5⟩ :=
    segv_handler_fragmentation_charge
      [{ p_type := 1, p_offset := 0x1000, p_vaddr := 0x10000, p_filesz := 0x10, p_memsz := 0x10 }]
      LoaderState.init 0x10000 0
      { p_type := 1, p_offset := 0x1000, p_vaddr := 0x10000, p_filesz := 0x10, p_memsz := 0x10 }
      (by decide) (by decide) (by decide) (by decide)
  refine ⟨s1, h1, h5, h4, ?_⟩
  rw [h2]
  decide

/-- Witness for claim C4: in a table holding a NOTE entry and then two LOAD entries
that both contain page 0x10000, a fault at 0x10abc has page base 0x10000 and is
resolved against the first LOAD entry (index 1). -/
theorem segv_handler_first_match_witness :
    fault_page_base 0x10abc = 0x10000 ∧
    segv_handler
        [{ p_type := 4, p_offset := 0, p_vaddr := 0x10000, p_filesz := 0x2000, p_memsz := 0x2000 },
         { p_type := 1, p_offset := 0x1000, p_vaddr := 0x10000, p_filesz := 0x10, p_memsz := 0x10 },
         { p_type := 1, p_offset := 0x3000, p_vaddr := 0x10000, p_filesz := 0, p_memsz := 0x1000 }]
        LoaderState.init 0x10abc true =
      map_page
        { p_type := 1, p_offset := 0x1000, p_vaddr := 0x10000, p_filesz := 0x10, p_memsz := 0x10 }
        0x10000 true (count_fault LoaderState.init) :=
  ⟨by decide,
   (segv_handler_first_match
      [{ p_type := 4, p_offset := 0, p_vaddr := 0x10000, p_filesz := 0x2000, p_memsz := 0x2000 },
       { p_type := 1, p_offset := 0x1000, p_vaddr := 0x10000, p_filesz := 0x10, p_memsz := 0x10 },
       { p_type := 1, p_offset := 0x3000, p_vaddr := 0x10000, p_filesz := 0, p_memsz := 0x1000 }]
      LoaderState.init 0x10abc true).2.1 1
      { p_type := 1, p_offset := 0x1000, p_vaddr := 0x10000, p_filesz := 0x10, p_memsz := 0x10 }
      (by decide) (by decide) (by decide)⟩


theorem account_step (M off : Nat) (s : LoaderState) :
    ∃ s1, account M off s = .resume s1 ∧ s1.total_page_faults = s.total_page_faults ∧
      s1.total_page_allocations = s.total_page_allocations + 1 ∧
      s.total_internal_fragmentation ≤ s1.total_internal_fragmentation := by
  unfold account
  simp only []
  split
  · split
    · exact ⟨_, rfl, rfl, rfl, Nat.le_add_right _ _⟩
    · exact ⟨_, rfl, rfl, rfl, Nat.le_refl _⟩
  · exact ⟨_, rfl, rfl, rfl, Nat.le_refl _⟩

theorem map_page_step (p : Elf32_Phdr) (pb : Nat) (ok : Bool) (s : LoaderState) :
    (ok = true ∧ ∃ s1, map_page p pb ok s = .resume s1 ∧
        s1.total_page_faults = s.total_page_faults ∧
        s1.total_page_allocations = s.total_page_allocations + 1 ∧
        s.total_internal_fragmentation ≤ s1.total_internal_fragmentation) ∨
      (ok = false ∧ ∃ msg, map_page p pb ok s = .exit 1 msg s) := by
  unfold map_page
  simp only []
  cases ok with
  | false =>
    right
    refine ⟨rfl, ?_⟩
    split
    · exact ⟨_, rfl⟩
    · exact ⟨_, rfl⟩
  | true =>
    left
    refine ⟨rfl, ?_⟩
    split
    · exact account_step _ _ _
    · exact account_step _ _ _

theorem segv_scan_cases (a : Elf32_Word) (pb : Nat) (ok : Bool) (s : LoaderState)
    (l : List Elf32_Phdr) :
    segv_scan a pb ok s l = .exit 1 (.fatal_unhandled a.val) s ∨
      ∃ p ∈ l, selects p pb ∧ segv_scan a pb ok s l = map_page p pb ok s := by
  by_cases h : ∃ p ∈ l, selects p pb
  · exact Or.inr (segv_scan_exists a pb ok s l h)
  · left
    apply segv_scan_none
    intro p hp hs
    exact h ⟨p, hp, hs⟩

theorem segv_handler_step (phdrs : List Elf32_Phdr) (s : LoaderState) (a : Elf32_Word)
    (ok : Bool) :
    (∃ s1, segv_handler phdrs s a ok = .resume s1 ∧
        s1.total_page_faults = s.total_page_faults + 1 ∧
        s1.total_page_allocations = s.total_page_allocations + 1 ∧
        s.total_internal_fragmentation ≤ s1.total_internal_fragmentation) ∨
      (∃ msg, segv_handler phdrs s a ok = .exit 1 msg (count_fault s)) := by
  unfold segv_handler
  rcases segv_scan_cases a (fault_page_base a) ok (count_fault s) phdrs with h | ⟨p, _, _, h⟩
  · exact Or.inr ⟨_, h⟩
  · rw [h]
    rcases map_page_step p (fault_page_base a) ok (count_fault s) with
      ⟨_, s1, h1, h2, h3, h4⟩ | ⟨_, msg, h1⟩
    · exact Or.inl ⟨s1, h1, h2, h3, h4⟩
    · exact Or.inr ⟨msg, h1⟩

theorem run_traps_counters (phdrs : List Elf32_Phdr) (traps : List Trap) (s : LoaderState) :
    (∃ s1, run_traps phdrs s traps = .resume s1 ∧
        s1.total_page_faults = s.total_page_faults + traps.length ∧
        s1.total_page_allocations = s.total_page_allocations + traps.length ∧
        s.total_internal_fragmentation ≤ s1.total_internal_fragmentation) ∨
      (∃ msg s1 k, run_traps phdrs s traps = .exit 1 msg s1 ∧ k < traps.length ∧
        s1.total_page_faults = s.total_page_faults + k + 1 ∧
        s1.total_page_allocations = s.total_page_allocations + k ∧
        s.total_internal_fragmentation ≤ s1.total_internal_fragmentation) := by
  induction traps generalizing s with
  | nil => exact Or.inl ⟨s, rfl, rfl, rfl, Nat.le_refl _⟩
  | cons t ts ih =>
    rcases segv_handler_step phdrs s t.fault_addr t.mmap_ok with ⟨s1, h1, h2, h3, h4⟩ | ⟨msg, h1⟩
    · rcases ih s1 with ⟨s2, g1, g2, g3, g4⟩ | ⟨msg, s2, k, g1, gk, g2, g3, g4⟩
      · left
        refine ⟨s2, ?_, ?_, ?_, ?_⟩
        · simp only [run_traps, h1]; exact g1
        · simp only [List.length_cons]; omega
        · simp only [List.length_cons]; omega
        · omega
      · right
        refine ⟨msg, s2, k + 1, ?_, ?_, ?_, ?_, ?_⟩
        · simp only [run_traps, h1]; exact g1
        · simp only [List.length_cons]; omega
        · omega
        · omega
        · omega
    · right
      refine ⟨msg, count_fault s, 0, ?_, ?_, ?_, ?_, ?_⟩
      · simp only [run_traps, h1]
      · simp
      · simp [count_fault]
      · simp [count_fault]
      · simp [count_fault]

/-- Claim C8. Every invocation of the handler raises the fault counter by exactly 1,
on the resuming path and on every exit path; the allocation counter goes up by exactly
1 when the fault is resolved and stays put otherwise; the fragmentation counter never
goes down.  Hence, from zeroed counters, after any sequence of invocations
allocations <= faults: allocations = faults = number of traps while the process lives,
and allocations + 1 = faults when the last invocation ended the process; along any run
from any state no counter decreases. -/
theorem counter_invariant (phdrs : List Elf32_Phdr) :
    (∀ (s : LoaderState) (a : Elf32_Word) (ok : Bool),
      (∀ s1, segv_handler phdrs s a ok = .resume s1 →
        s1.total_page_faults = s.total_page_faults + 1 ∧
        s1.total_page_allocations = s.total_page_allocations + 1 ∧
        s.total_internal_fragmentation ≤ s1.total_internal_fragmentation) ∧
      (∀ n msg s1, segv_handler phdrs s a ok = .exit n msg s1 →
        n = 1 ∧ s1.total_page_faults = s.total_page_faults + 1 ∧
        s1.total_page_allocations = s.total_page_allocations ∧
        s1.total_internal_fragmentation = s.total_internal_fragmentation)) ∧
    (∀ (traps : List Trap),
      (∀ s1, run_traps phdrs LoaderState.init traps = .resume s1 →
        s1.total_page_allocations = s1.total_page_faults ∧
        s1.total_page_faults = traps.length) ∧
      (∀ n msg s1, run_traps phdrs LoaderState.init traps = .exit n msg s1 →
        s1.total_page_allocations + 1 = s1.total_page_faults ∧
        s1.total_page_allocations ≤ s1.total_page_faults ∧
        s1.total_page_faults ≤ traps.length)) ∧
    (∀ (s : LoaderState) (traps : List Trap) (s1 : LoaderState),
      (run_traps phdrs s traps = .resume s1 ∨
        ∃ n msg, run_traps phdrs s traps = .exit n msg s1) →
      s.total_page_faults ≤ s1.total_page_faults ∧
      s.total_page_allocations ≤ s1.total_page_allocations ∧
      s.total_internal_fragmentation ≤ s1.total_internal_fragmentation) := by
  refine ⟨?_, ?_, ?_⟩
  · intro s a ok
    rcases segv_handler_step phdrs s a ok with ⟨s1, h1, h2, h3, h4⟩ | ⟨msg, h1⟩
    · constructor
      · intro s2 h
        rw [h1] at h
        cases h
        exact ⟨h2, h3, h4⟩
      · intro n msg s2 h
        rw [h1] at h
        cases h
    · constructor
      · intro s2 h
        rw [h1] at h
        cases h
      · intro n msg2 s2 h
        rw [h1] at h
        cases h
        exact ⟨rfl, rfl, rfl, rfl⟩
  · intro traps
    rcases run_traps_counters phdrs traps LoaderState.init with
      ⟨s1, h1, h2, h3, _⟩ | ⟨msg, s1, k, h1, hk, h2, h3, _⟩
    · constructor
      · intro s2 h
        rw [h1] at h
        cases h
        simp only [LoaderState.init] at h2 h3
        omega
      · intro n msg s2 h
        rw [h1] at h
        cases h
    · constructor
      · intro s2 h
        rw [h1] at h
        cases h
      · intro n msg2 s2 h
        rw [h1] at h
        cases h
        simp only [LoaderState.init] at h2 h3
        omega
  · intro s traps s1 h
    rcases run_traps_counters phdrs traps s with
      ⟨s2, h1, h2, h3, h4⟩ | ⟨msg, s2, k, h1, hk, h2, h3, h4⟩
    · rcases h with h | ⟨n, msg, h⟩
      · rw [h1] at h
        cases h
        omega
      · rw [h1] at h
        cases h
    · rcases h with h | ⟨n, msg2, h⟩
      · rw [h1] at h
        cases h
      · rw [h1] at h
        cases h
        omega


theorem trap_charge_none (l : List Elf32_Phdr) (b : Nat) (h : ∀ q ∈ l, ¬ selects q b) :
    trap_charge l b = 0 := by
  induction l with
  | nil => rfl
  | cons q rest ih =>
    have hq : ¬ is_last_page q b := fun hc => h q (List.mem_cons_self _ _) hc.1
    have := ih (fun r hr => h r (List.mem_cons_of_mem _ hr))
    unfold trap_charge at this ⊢
    simp only [List.map_cons, List.sum_cons, if_neg hq, this]

theorem non_overlapping_tail (p : Elf32_Phdr) (rest : List Elf32_Phdr)
    (h : non_overlapping (p :: rest)) : non_overlapping rest := by
  unfold non_overlapping at h ⊢
  by_cases hp : p.p_type.val = PT_LOAD
  · rw [List.filter_cons_of_pos (by simpa using hp)] at h
    exact (List.pairwise_cons.1 h).2
  · rw [List.filter_cons_of_neg (by simpa using hp)] at h
    exact h

theorem non_overlapping_head (p : Elf32_Phdr) (rest : List Elf32_Phdr) (b : Nat)
    (h : non_overlapping (p :: rest)) (hs : selects p b) : ∀ q ∈ rest, ¬ selects q b := by
  intro q hq hqs
  unfold non_overlapping at h
  rw [List.filter_cons_of_pos (by simpa using hs.1)] at h
  have hrel := (List.pairwise_cons.1 h).1 q
    (List.mem_filter.2 ⟨hq, by simpa using hqs.1⟩)
  obtain ⟨_, h1, h2, _⟩ := selects_bounds p b hs
  obtain ⟨_, h3, h4, _⟩ := selects_bounds q b hqs
  omega

theorem charge_of_eq (p : Elf32_Phdr) (b : Nat) (hs : selects p b) :
    charge_of p b = if is_last_page p b then last_page_charge p else 0 := by
  unfold charge_of is_last_page last_page_charge
  by_cases h1 : (b - p.p_vaddr.val) / 4096 + 1 = (p.p_memsz.val + 4095) / 4096
  · by_cases h2 : p.p_memsz.val % 4096 = 0
    · simp [h1, h2, hs]
    · simp [h1, h2, hs]
  · simp [h1]

theorem segv_scan_charge (a : Elf32_Word) (pb : Nat) (s s1 : LoaderState) (ok : Bool)
    (l : List Elf32_Phdr) (hno : non_overlapping l) (htop : pb + 4096 < 4294967296)
    (hrun : segv_scan a pb ok s l = .resume s1) :
    s1.total_internal_fragmentation = s.total_internal_fragmentation + trap_charge l pb := by
  induction l with
  | nil => simp [segv_scan] at hrun
  | cons p rest ih =>
    by_cases hs : selects p pb
    · rw [segv_scan_hit a pb ok s p rest hs] at hrun
      have hok : ok = true := by
        rcases map_page_step p pb ok s with ⟨h, _⟩ | ⟨_, msg, h⟩
        · exact h
        · rw [h] at hrun; cases hrun
      subst hok
      obtain ⟨m, hm⟩ := map_page_counters p pb s hs htop
      rw [hm] at hrun
      cases hrun
      have hrest := trap_charge_none rest pb (non_overlapping_head p rest pb hno hs)
      unfold trap_charge at hrest ⊢
      simp only [List.map_cons, List.sum_cons, hrest, charge_of_eq p pb hs]
      omega
    · rw [segv_scan_skip a pb ok s p rest hs] at hrun
      have hq : ¬ is_last_page p pb := fun hc => hs hc.1
      have := ih (non_overlapping_tail p rest hno) hrun
      unfold trap_charge at this ⊢
      simp only [List.map_cons, List.sum_cons, if_neg hq, this]
      omega

theorem run_traps_charge (phdrs : List Elf32_Phdr) (hno : non_overlapping phdrs)
    (traps : List Trap) (s s1 : LoaderState)
    (htop : ∀ t ∈ traps, fault_page_base t.fault_addr + 4096 < 4294967296)
    (hrun : run_traps phdrs s traps = .resume s1) :
    s1.total_internal_fragmentation = s.total_internal_fragmentation +
      (traps.map (fun t => trap_charge phdrs (fault_page_base t.fault_addr))).sum := by
  induction traps generalizing s with
  | nil =>
    simp only [run_traps] at hrun
    cases hrun
    simp
  | cons t ts ih =>
    simp only [run_traps] at hrun
    cases hstep : segv_handler phdrs s t.fault_addr t.mmap_ok with
    | exit n msg s2 => rw [hstep] at hrun; cases hrun
    | resume s2 =>
      rw [hstep] at hrun
      have h1 := segv_scan_charge t.fault_addr _ _ s2 t.mmap_ok phdrs hno
        (htop t (List.mem_cons_self _ _)) hstep
      have h2 := ih s2 (fun r hr => htop r (List.mem_cons_of_mem _ hr)) hrun
      simp only [List.map_cons, List.sum_cons]
      simp only [count_fault] at h1
      omega

theorem is_last_page_unique (p : Elf32_Phdr) (b c : Nat) (hb : b % 4096 = 0) (hc : c % 4096 = 0)
    (h1 : is_last_page p b) (h2 : is_last_page p c) : b = c := by
  obtain ⟨_, hb1, _, _⟩ := selects_bounds p b h1.1
  obtain ⟨_, hc1, _, _⟩ := selects_bounds p c h2.1
  have e1 := h1.2
  have e2 := h2.2
  omega

theorem fault_page_base_aligned (a : Elf32_Word) : fault_page_base a % 4096 = 0 := by
  rw [fault_page_base_eq]
  omega

theorem claimed_fragmentation_cons (phdrs : List Elf32_Phdr) (t : Trap) (ts : List Trap)
    (hnew : ∀ r ∈ ts, fault_page_base r.fault_addr ≠ fault_page_base t.fault_addr) :
    claimed_fragmentation phdrs (t :: ts) =
      trap_charge phdrs (fault_page_base t.fault_addr) + claimed_fragmentation phdrs ts := by
  unfold claimed_fragmentation trap_charge
  induction phdrs with
  | nil => rfl
  | cons p rest ih =>
    simp only [List.map_cons, List.sum_cons, ih]
    by_cases h1 : is_last_page p (fault_page_base t.fault_addr)
    · have h2 : ¬ ∃ r ∈ ts, is_last_page p (fault_page_base r.fault_addr) := by
        rintro ⟨r, hr, hl⟩
        exact hnew r hr (is_last_page_unique p _ _ (fault_page_base_aligned _)
          (fault_page_base_aligned _) hl h1)
      have h3 : ∃ r ∈ t :: ts, is_last_page p (fault_page_base r.fault_addr) :=
        ⟨t, List.mem_cons_self _ _, h1⟩
      rw [if_pos h3, if_pos h1, if_neg h2]
      omega
    · by_cases h2 : ∃ r ∈ ts, is_last_page p (fault_page_base r.fault_addr)
      · have h3 : ∃ r ∈ t :: ts, is_last_page p (fault_page_base r.fault_addr) := by
          obtain ⟨r, hr, hl⟩ := h2
          exact ⟨r, List.mem_cons_of_mem _ hr, hl⟩
        rw [if_pos h3, if_neg h1, if_pos h2]
        omega
      · have h3 : ¬ ∃ r ∈ t :: ts, is_last_page p (fault_page_base r.fault_addr) := by
          rintro ⟨r, hr, hl⟩
          rcases List.mem_cons.1 hr with rfl | hr2
          · exact h1 hl
          · exact h2 ⟨r, hr2, hl⟩
        rw [if_neg h3, if_neg h1, if_neg h2]
        omega

theorem claimed_fragmentation_nodup (phdrs : List Elf32_Phdr) (traps : List Trap)
    (hnd : (traps.map (fun t => fault_page_base t.fault_addr)).Nodup) :
    (traps.map (fun t => trap_charge phdrs (fault_page_base t.fault_addr))).sum =
      claimed_fragmentation phdrs traps := by
  induction traps with
  | nil =>
    unfold claimed_fragmentation
    simp
  | cons t ts ih =>
    simp only [List.map_cons, List.nodup_cons] at hnd
    rw [claimed_fragmentation_cons phdrs t ts]
    · simp only [List.map_cons, List.sum_cons, ih hnd.2]
    · intro r hr heq
      exact hnd.1 (List.mem_map.2 ⟨r, hr, heq⟩)

/-- Claim C7, as amended. For every table with non-overlapping LOAD segments and every
finite sequence of resolved faults (on pages below the topmost page of the address
space) handled from zeroed counters, the fragmentation total is the sum, over the
faults of the sequence (each occurrence counted) and the segments whose last page the
fault is on, of `4096 - (p_memsz mod 4096)` where that remainder is non-zero; when no
page is faulted more than once this is the sum over the set of segments whose last
page was faulted. -/
theorem fragmentation_total (phdrs : List Elf32_Phdr) (traps : List Trap) (s1 : LoaderState)
    (hno : non_overlapping phdrs)
    (htop : ∀ t ∈ traps, fault_page_base t.fault_addr + 4096 < 4294967296)
    (hrun : run_traps phdrs LoaderState.init traps = .resume s1) :
    s1.total_internal_fragmentation =
        (traps.map (fun t => trap_charge phdrs (fault_page_base t.fault_addr))).sum ∧
    ((traps.map (fun t => fault_page_base t.fault_addr)).Nodup →
      s1.total_internal_fragmentation = claimed_fragmentation phdrs traps) := by
  have h := run_traps_charge phdrs hno traps LoaderState.init s1 htop hrun
  simp only [LoaderState.init, Nat.zero_add] at h
  exact ⟨h, fun hnd => by rw [h, claimed_fragmentation_nodup phdrs traps hnd]⟩

/-- Witness for claim C7 as amended, the scenario of section 8: one segment of file size
100 and memory size 5000 at 0x10000, both pages faulted once: 3192 bytes, charged on
the second page. -/
theorem fragmentation_total_witness :
    ∃ s1 : LoaderState,
      run_traps
          [{ p_type := 1, p_offset := 0x1000, p_vaddr := 0x10000, p_filesz := 100,
             p_memsz := 5000 }]
          LoaderState.init [⟨0x10000, true⟩, ⟨0x11008, true⟩] = .resume s1 ∧
      s1.total_internal_fragmentation = 3192 ∧
      claimed_fragmentation
          [{ p_type := 1, p_offset := 0x1000, p_vaddr := 0x10000, p_filesz := 100,
             p_memsz := 5000 }]
          [⟨0x10000, true⟩, ⟨0x11008, true⟩] = 3192 := by
  refine ⟨_, rfl, ?_, by decide⟩
  have h := (fragmentation_total
      [{ p_type := 1, p_offset := 0x1000, p_vaddr := 0x10000, p_filesz := 100, p_memsz := 5000 }]
      [⟨0x10000, true⟩, ⟨0x11008, true⟩] _ (by decide) (by decide) rfl).2 (by decide)
  rw [h]
  decide

/-- Counterexample to claim C7 as stated: one LOAD segment `[0x10000, 0x10010)`, its
only (last) page faulted twice from zeroed counters, both faults resolved.  The
fragmentation total is 8160, twice the 4080 that the sum over the set of segments whose
last page was faulted gives. -/
theorem fragmentation_total_counterexample :
    non_overlapping
        [{ p_type := 1, p_offset := 0x1000, p_vaddr := 0x10000, p_filesz := 0x10, p_memsz := 0x10 }] ∧
    claimed_fragmentation
        [{ p_type := 1, p_offset := 0x1000, p_vaddr := 0x10000, p_filesz := 0x10, p_memsz := 0x10 }]
        [⟨0x10000, true⟩, ⟨0x10000, true⟩] = 4080 ∧
    run_traps
        [{ p_type := 1, p_offset := 0x1000, p_vaddr := 0x10000, p_filesz := 0x10, p_memsz := 0x10 }]
        LoaderState.init [⟨0x10000, true⟩, ⟨0x10000, true⟩] =
      .resume
        { total_page_faults := 2, total_page_allocations := 2,
          total_internal_fragmentation := 8160,
          pages := [{ addr := 0x10000, length := 4096, backing := .file 0x1000,
                      zeroed := some (16, 4080) },
                    { addr := 0x10000, length := 4096, backing := .file 0x1000,
                      zeroed := some (16, 4080) }] } := by
  decide


/-- Claim C1, as amended. With fewer than one argument (`argc < 2`) the exit status
of `main` is 1.  Otherwise the status is 0 on every path on which `load_and_run_elf`
returns: when `open` fails, when an allocation fails, when the ELF header or the
program-header read is short, when `sigaction` fails (each time with a diagnostic and
no report), and when the program completed and the report was printed.  The status is
1 with `argc >= 2` only when the fault handler ended the process; no other status
occurs. -/
theorem main_exit_status (argc : Int) (env : LoadEnv) :
    (argc < 2 → (main argc env).status = 1 ∧ (main argc env).report = none) ∧
    (2 ≤ argc →
      (env.open_ret < 0 ∨ env.ehdr_alloc = false ∨ (-1 ≤ env.ehdr_read ∧ env.ehdr_read < 52) ∨
        env.phdr_alloc = false ∨
        (-1 ≤ env.phdr_read ∧ env.phdr_read < ((env.e_phnum.val * 32 : Nat) : Int)) ∨
        env.sigaction_ret = -1) →
      (main argc env).status = 0 ∧ (main argc env).report = none ∧
        (main argc env).err ≠ none) ∧
    (2 ≤ argc → (main argc env).report ≠ none → (main argc env).status = 0) ∧
    (2 ≤ argc →
      ((main argc env).status = 1 ↔
        ∃ msg, load_and_run_elf env = .exited 1 msg)) ∧
    ((main argc env).status = 0 ∨ (main argc env).status = 1) := by
  have hph := env.e_phnum.isLt
  have hkill : ∀ n msg, load_and_run_elf env = .exited n msg → n = 1 := by
    intro n msg h
    unfold load_and_run_elf at h
    split at h
    · cases h
    · split at h
      · cases h
      · split at h
        · cases h
        · split at h
          · cases h
          · rcases run_traps_counters (env.phdrs.take env.e_phnum.val) env.traps
              LoaderState.init with ⟨s1, h1, _⟩ | ⟨msg2, s1, k, h1, _⟩
            · rw [h1] at h; cases h
            · rw [h1] at h; cases h; rfl
  refine ⟨?_, ?_, ?_, ?_, ?_⟩
  · intro h
    simp [main, h]
  · intro h hfail
    have hna : ¬ argc < 2 := by omega
    have hret : ∃ m, load_and_run_elf env = .returned (some m) none := by
      unfold load_and_run_elf
      by_cases h1 : env.open_ret < 0
      · exact ⟨_, by rw [if_pos h1]⟩
      · rw [if_neg h1]
        by_cases h2 : (!env.ehdr_alloc || decide (env.ehdr_read % 4294967296 ≠ 52)) = true
        · exact ⟨_, by rw [if_pos h2]⟩
        · rw [if_neg h2]
          by_cases h3 : (!env.phdr_alloc || decide (env.phdr_read % 4294967296 ≠
              ((env.e_phnum.val * 32 : Nat) : Int) % 4294967296)) = true
          · exact ⟨_, by rw [if_pos h3]⟩
          · rw [if_neg h3]
            by_cases h4 : env.sigaction_ret = -1
            · exact ⟨_, by rw [if_pos h4]⟩
            · exfalso
              simp only [Bool.or_eq_true, Bool.not_eq_true', decide_eq_true_eq, not_or,
                Bool.not_eq_false, ne_eq, Decidable.not_not] at h2 h3
              rcases hfail with hf | hf | hf | hf | hf | hf
              · exact h1 hf
              · rw [h2.1] at hf; cases hf
              · omega
              · rw [h3.1] at hf; cases hf
              · omega
              · exact h4 hf
    obtain ⟨m, hm⟩ := hret
    simp [main, hna, hm]
  · intro h hrep
    have hna : ¬ argc < 2 := by omega
    unfold main at hrep ⊢
    rw [if_neg hna] at hrep ⊢
    cases hl : load_and_run_elf env with
    | returned err report => rfl
    | exited n msg => rw [hl] at hrep; exact absurd rfl hrep
  · intro h
    have hna : ¬ argc < 2 := by omega
    unfold main
    rw [if_neg hna]
    cases hl : load_and_run_elf env with
    | returned err report => simp
    | exited n msg =>
      have := hkill n msg hl
      subst this
      simp
  · unfold main
    by_cases hna : argc < 2
    · rw [if_pos hna]; exact Or.inr rfl
    · rw [if_neg hna]
      cases hl : load_and_run_elf env with
      | returned err report => exact Or.inl rfl
      | exited n msg => exact Or.inr (hkill n msg hl)

/-- Witness for claim C1 as amended: `argc = 2`, the header read returns 10 bytes. -/
theorem main_exit_status_witness :
    (main 2 { open_ret := 3, ehdr_alloc := true, ehdr_read := 10, e_phnum := 0,
              phdr_alloc := true, phdr_read := 0, phdrs := [], sigaction_ret := 0,
              traps := [], start_ret := 0 }).status = 0 :=
  ((main_exit_status 2
      { open_ret := 3, ehdr_alloc := true, ehdr_read := 10, e_phnum := 0,
        phdr_alloc := true, phdr_read := 0, phdrs := [], sigaction_ret := 0,
        traps := [], start_ret := 0 }).2.1 (by decide)
    (Or.inr (Or.inr (Or.inl (by decide))))).1

/-- Counterexample to claim C1 as stated: `argc = 2` and `open` fails (returns -1);
the process exit status is 0, not 1, and no report is printed. -/
theorem main_exit_status_counterexample :
    (main 2 { open_ret := -1, ehdr_alloc := true, ehdr_read := 52, e_phnum := 1,
              phdr_alloc := true, phdr_read := 32,
              phdrs := [{ p_type := 1, p_offset := 0x1000, p_vaddr := 0x10000,
                          p_filesz := 0x10, p_memsz := 0x10 }],
              sigaction_ret := 0, traps := [⟨0x10000, true⟩], start_ret := 42 }) =
      { status := 0, err := some .open_failed, report := none } := by
  decide

end SimpleSmartLoader

namespace SimpleMultithreaderInternal

theorem wrapInt_eq (x : Int) (h1 : -2147483648 ≤ x) (h2 : x < 2147483648) : wrapInt x = x := by
  unfold wrapInt
  omega

theorem chunk_offset_succ (b r t : Int) :
    chunk_offset b r (t + 1) = chunk_offset b r t + (b + if t < r then 1 else 0) := by
  unfold chunk_offset
  have : (t + 1) * b = t * b + b := by ring
  rw [this]
  by_cases h1 : t < r
  · by_cases h2 : t + 1 < r
    · rw [if_pos h1, if_pos h2, if_pos h1]; omega
    · rw [if_pos h1, if_neg h2, if_pos h1]; omega
  · have h2 : ¬ t + 1 < r := by omega
    rw [if_neg h1, if_neg h2, if_neg h1]; omega

theorem chunk_offset_mono (b r u t : Int) (hb : 0 ≤ b) (hut : u ≤ t) :
    chunk_offset b r u ≤ chunk_offset b r t := by
  unfold chunk_offset
  have h := mul_nonneg (show (0 : Int) ≤ t - u by omega) hb
  have e : (t - u) * b = t * b - u * b := by ring
  rw [e] at h
  split <;> split <;> omega

theorem chunk_offset_total (b r T : Int) (hr : r < T) : chunk_offset b r T = T * b + r := by
  unfold chunk_offset
  rw [if_neg (by omega)]

theorem calculateThreadRange_eq (low high T t : Int)
    (hlow : -2147483648 ≤ low) (hhigh : high < 2147483648) (hlt : low < high)
    (hrep : high - low < 2147483648) (hT : 0 < T) (ht0 : 0 ≤ t) (htT : t < T) :
    calculateThreadRange low high t T =
      (low + chunk_offset ((high - low) / T) ((high - low) % T) t,
       low + chunk_offset ((high - low) / T) ((high - low) % T) (t + 1)) := by
  rw [chunk_offset_succ]
  unfold calculateThreadRange chunk_offset
  have hn : wrapInt (high - low) = high - low := wrapInt_eq _ (by omega) hrep
  simp only [hn]
  rw [if_neg (by omega)]
  rw [Int.tdiv_eq_ediv (by omega) (by omega), Int.tmod_eq_emod (by omega) (by omega)]
  have hdm : T * ((high - low) / T) + (high - low) % T = high - low :=
    Int.ediv_add_emod (high - low) T
  have hr0 : 0 ≤ (high - low) % T := Int.emod_nonneg _ (by omega)
  have hrT : (high - low) % T < T := Int.emod_lt_of_pos _ hT
  have hb0 : 0 ≤ (high - low) / T := Int.ediv_nonneg (by omega) (by omega)
  generalize (high - low) / T = b at *
  generalize (high - low) % T = r at *
  have h1 := mul_nonneg ht0 hb0
  have h2 := mul_nonneg (show (0 : Int) ≤ T - 1 - t by omega) hb0
  have e2 : (T - 1 - t) * b = T * b - b - t * b := by ring
  rw [e2] at h2
  have hbw : wrapInt b = b := wrapInt_eq _ (by omega) (by omega)
  rw [hbw]
  have htb : wrapInt (t * b) = t * b := wrapInt_eq _ (by omega) (by omega)
  rw [htb]
  by_cases hc : t < r
  · simp only [if_pos hc]
    have ho : wrapInt (t * b + t) = t * b + t := wrapInt_eq _ (by omega) (by omega)
    have hcnt : wrapInt (b + 1) = b + 1 := wrapInt_eq _ (by omega) (by omega)
    rw [ho, hcnt]
    have hs : wrapInt (low + (t * b + t)) = low + (t * b + t) :=
      wrapInt_eq _ (by omega) (by omega)
    rw [hs]
    have he : wrapInt (low + (t * b + t) + (b + 1)) = low + (t * b + t) + (b + 1) :=
      wrapInt_eq _ (by omega) (by omega)
    rw [he]
    congr 1
    omega
  · simp only [if_neg hc]
    have ho : wrapInt (t * b + r) = t * b + r := wrapInt_eq _ (by omega) (by omega)
    have hcnt : wrapInt (b + 0) = b + 0 := wrapInt_eq _ (by omega) (by omega)
    rw [ho, hcnt]
    have hs : wrapInt (low + (t * b + r)) = low + (t * b + r) :=
      wrapInt_eq _ (by omega) (by omega)
    rw [hs]
    have he : wrapInt (low + (t * b + r) + (b + 0)) = low + (t * b + r) + (b + 0) :=
      wrapInt_eq _ (by omega) (by omega)
    rw [he]
    congr 1
    omega

theorem chunk_offset_cover (b r : Int) (k : Nat) (j : Int) (hj0 : 0 ≤ j)
    (hj : j < chunk_offset b r k) :
    ∃ t : Int, 0 ≤ t ∧ t < k ∧ chunk_offset b r t ≤ j ∧ j < chunk_offset b r (t + 1) := by
  induction k with
  | zero =>
    exfalso
    unfold chunk_offset at hj
    simp only [Nat.cast_zero, zero_mul] at hj
    split at hj <;> omega
  | succ k ih =>
    by_cases h : j < chunk_offset b r k
    · obtain ⟨t, h1, h2, h3, h4⟩ := ih h
      exact ⟨t, h1, by push_cast; omega, h3, h4⟩
    · refine ⟨k, by omega, by push_cast; omega, by omega, ?_⟩
      push_cast at hj
      exact hj


/-- Claim C9. For `int` arguments with `low < high`, `high - low` representable and
`numThreads = T > 0`, the chunks `[start_t, end_t)` of `calculateThreadRange` for
`t = 0 .. T-1` satisfy `start_0 = low`, `end_(T-1) = high`, `end_t = start_(t+1)` and
`start_t <= end_t`; every index of `[low, high)` lies in exactly one chunk; chunk `t`
has `floor(n/T) + 1` items when `t < n mod T` and `floor(n/T)` otherwise
(`n = high - low`).  When `high <= low` (the difference representable) or `T <= 0` the
chunk is the empty range `[low, low)`. -/
theorem calculateThreadRange_partition :
    (∀ (low high T : Int), -2147483648 ≤ low → high < 2147483648 → low < high →
      high - low < 2147483648 → 0 < T →
      (calculateThreadRange low high 0 T).1 = low ∧
      (calculateThreadRange low high (T - 1) T).2 = high ∧
      (∀ t : Int, 0 ≤ t → t < T - 1 →
        (calculateThreadRange low high t T).2 = (calculateThreadRange low high (t + 1) T).1) ∧
      (∀ t : Int, 0 ≤ t → t < T →
        (calculateThreadRange low high t T).1 ≤ (calculateThreadRange low high t T).2 ∧
        (calculateThreadRange low high t T).2 - (calculateThreadRange low high t T).1 =
          (high - low) / T + (if t < (high - low) % T then 1 else 0)) ∧
      (∀ i : Int, low ≤ i → i < high →
        ∃ t : Int, (0 ≤ t ∧ t < T ∧
          (calculateThreadRange low high t T).1 ≤ i ∧ i < (calculateThreadRange low high t T).2) ∧
          ∀ u : Int, 0 ≤ u → u < T →
            (calculateThreadRange low high u T).1 ≤ i →
            i < (calculateThreadRange low high u T).2 → u = t)) ∧
    (∀ (low high t T : Int), -2147483648 ≤ high - low → high - low < 2147483648 →
      (high ≤ low ∨ T ≤ 0) → calculateThreadRange low high t T = (low, low)) := by
  constructor
  · intro low high T hlow hhigh hlt hrep hT
    have heq := fun t h0 h1 => calculateThreadRange_eq low high T t hlow hhigh hlt hrep hT h0 h1
    have hdm : T * ((high - low) / T) + (high - low) % T = high - low :=
      Int.ediv_add_emod (high - low) T
    have hr0 : 0 ≤ (high - low) % T := Int.emod_nonneg _ (by omega)
    have hrT : (high - low) % T < T := Int.emod_lt_of_pos _ hT
    have hb0 : 0 ≤ (high - low) / T := Int.ediv_nonneg (by omega) (by omega)
    generalize (high - low) / T = b at *
    generalize (high - low) % T = r at *
    have htot := chunk_offset_total b r T hrT
    refine ⟨?_, ?_, ?_, ?_, ?_⟩
    · rw [heq 0 (by omega) hT]
      simp only [chunk_offset]
      split <;> omega
    · rw [heq (T - 1) (by omega) (by omega)]
      simp only [sub_add_cancel, htot]
      omega
    · intro t h0 h1
      rw [heq t h0 (by omega), heq (t + 1) (by omega) (by omega)]
    · intro t h0 h1
      rw [heq t h0 h1]
      simp only [chunk_offset_succ b r t]
      constructor
      · split <;> omega
      · split <;> omega
    · intro i hi0 hi1
      have hT' : ((T.toNat : Nat) : Int) = T := Int.toNat_of_nonneg (by omega)
      obtain ⟨t, h1, h2, h3, h4⟩ := chunk_offset_cover b r T.toNat (i - low) (by omega)
        (by rw [hT', htot]; omega)
      rw [hT'] at h2
      refine ⟨t, ⟨h1, h2, ?_, ?_⟩, ?_⟩
      · rw [heq t h1 h2]; simp only []; omega
      · rw [heq t h1 h2]; simp only []; omega
      · intro u hu0 hu1 hu2 hu3
        rw [heq u hu0 hu1] at hu2 hu3
        simp only [] at hu2 hu3
        by_contra hne
        rcases lt_or_gt_of_ne hne with hlt2 | hgt2
        · have := chunk_offset_mono b r (u + 1) t hb0 (by omega)
          omega
        · have := chunk_offset_mono b r (t + 1) u hb0 (by omega)
          omega
  · intro low high t T h1 h2 h
    unfold calculateThreadRange
    have hn : wrapInt (high - low) = high - low := wrapInt_eq _ h1 h2
    simp only [hn]
    rw [if_pos (by omega)]

/-- Witness for claim C9: ten items from -3 split over four threads give the chunks
`[-3, 0)`, `[0, 3)`, `[3, 5)`, `[5, 7)`; with `high <= low` the chunk is `[low, low)`. -/
theorem calculateThreadRange_partition_witness :
    ((calculateThreadRange (-3) 7 0 4).1 = -3 ∧ (calculateThreadRange (-3) 7 (4 - 1) 4).2 = 7) ∧
    calculateThreadRange (-3) 7 1 4 = (0, 3) ∧
    calculateThreadRange 5 5 2 4 = (5, 5) := by
  have h := calculateThreadRange_partition.1 (-3) 7 4 (by decide) (by decide) (by decide)
    (by decide) (by decide)
  exact ⟨⟨h.1, h.2.1⟩, by decide,
    calculateThreadRange_partition.2 5 5 2 4 (by decide) (by decide) (Or.inl (by decide))⟩


/-- Claim C10, the code at the failing input: `parallel_for(0, 4, body, 2)` when the
one `pthread_create` fails.  The fallback loop runs chunks 0 and 1 on the calling
thread, then the calling thread runs chunk 1 (the last chunk) once more: the body is
invoked twice for 2 and for 3.  The 2D overload repeats the last row chunk in the same
way.  When the creation succeeds each index is visited once. -/
theorem parallel_for_create_failure_repeats_last_chunk :
    parallel_for 0 4 2 (fun _ => false) = [0, 1, 2, 3, 2, 3] ∧
    (parallel_for 0 4 2 (fun _ => false)).count 2 = 2 ∧
    (parallel_for 0 4 2 (fun _ => false)).count 3 = 2 ∧
    parallel_for_2d 0 2 0 1 2 (fun _ => false) = [(0, 0), (1, 0), (1, 0)] ∧
    parallel_for 0 4 2 (fun _ => true) = [0, 1, 2, 3] := by
  decide

end SimpleMultithreaderInternal
